import Mathlib

/-!
# Verification of the FluidFramework snapshot codec and interval layer

Part 1 embeds `convertSnapshotToSummaryTree` (snapshot-to-summary-tree
conversion). The TypeScript source builds `blobMapInitial` from the
snapshot's blob map, then for every entry whose value is itself a key of
the map it stores the aliased entry's raw string; assignment uses property
syntax (`blobMapFinal[key] = ...`) on a `Map` object and readback uses
`Object.entries(blobMapFinal)`, which observes exactly those property
assignments in insertion order. Each surviving entry is base64-decoded
(`Buffer.from(value, "base64")`) and added to the summary builder under its
original key; subtrees are converted recursively. Decoded blob contents are
modelled as the byte list produced by base64 decoding (the source's
`.toString()` is the UTF-8 read of those bytes, a bijection on valid
content, so byte-list equality is content equality).

Part 2 (further below) models the sequence/interval layer, whose
implementation is exercised only through tests in this repository.
-/

/-- Association-list lookup with decidable string equality: the first entry
whose key equals `k`, mirroring `Map.get` on a map built from
`Object.entries` (unique keys, insertion order). -/
def lookupKey {α : Type} (k : String) : List (String × α) → Option α
  | [] => none
  | (k', v) :: rest => if k' = k then some v else lookupKey k rest

/-- Value of one base64 alphabet character, `none` for characters Node's
decoder ignores (padding, whitespace, anything invalid). -/
def base64CharVal (c : Char) : Option Nat :=
  let n := c.toNat
  if 65 ≤ n ∧ n ≤ 90 then some (n - 65)
  else if 97 ≤ n ∧ n ≤ 122 then some (n - 97 + 26)
  else if 48 ≤ n ∧ n ≤ 57 then some (n - 48 + 52)
  else if c = '+' ∨ c = '-' then some 62
  else if c = '/' ∨ c = '_' then some 63
  else none

/-- Assemble a bit stream of 6-bit groups into complete bytes; trailing
bits that do not fill a byte are discarded, as `Buffer.from(_, "base64")`
does. `acc` holds `nbits` pending bits. -/
def base64Bytes : List Nat → Nat → Nat → List Nat
  | [], _, _ => []
  | v :: rest, acc, nbits =>
    let acc2 := acc * 64 + v
    let nb := nbits + 6
    if 8 ≤ nb then
      (acc2 / 2 ^ (nb - 8)) :: base64Bytes rest (acc2 % 2 ^ (nb - 8)) (nb - 8)
    else
      base64Bytes rest acc2 nb

/-- `Buffer.from(s, "base64")` as a byte list: invalid characters and
padding are skipped, the remaining sextets are packed into bytes. -/
def base64Decode (s : String) : List Nat :=
  base64Bytes (s.data.filterMap base64CharVal) 0 0

/-- Byte list of an ASCII string, for stating decoded contents. -/
def asciiBytes (s : String) : List Nat :=
  s.data.map Char.toNat

/-- `ISnapshotTree`: a blob map (key to base64 string, in object entry
order) and named subtrees. -/
inductive ISnapshotTree : Type where
  | mk : List (String × String) → List (String × ISnapshotTree) → ISnapshotTree

def ISnapshotTree.blobs : ISnapshotTree → List (String × String)
  | .mk bs _ => bs

def ISnapshotTree.trees : ISnapshotTree → List (String × ISnapshotTree)
  | .mk _ ts => ts

/-- A summary tree: decoded blobs (as byte lists) plus converted subtrees.
The builder's statistics are determined by this structure and are not
needed by any claim. -/
inductive SummaryTree : Type where
  | node : List (String × List Nat) → List (String × SummaryTree) → SummaryTree

def SummaryTree.blobs : SummaryTree → List (String × List Nat)
  | .node bs _ => bs

/-- The alias-resolution loop of `convertSnapshotToSummaryTree`: for each
entry `(key, value)` of `l`, if `value` is a key of `full`
(`blobMapInitial.has(value)`), keep `(key, blobMapInitial.get(value))`,
otherwise drop the entry. The source runs this with `l = full =
blobMapInitial`. -/
def resolveAliases (full : List (String × String)) (l : List (String × String)) :
    List (String × String) :=
  l.filterMap fun kv =>
    match lookupKey kv.2 full with
    | some w => some (kv.1, w)
    | none => none

/-- `convertSnapshotToSummaryTree`: resolve blob aliases against the whole
blob map, base64-decode each surviving value under its original key, and
convert every subtree recursively. -/
def convertSnapshotToSummaryTree : ISnapshotTree → SummaryTree
  | .mk blobs trees =>
    SummaryTree.node
      ((resolveAliases blobs blobs).map fun kv => (kv.1, base64Decode kv.2))
      (trees.attach.map fun kt => (kt.1.1, convertSnapshotToSummaryTree kt.1.2))
decreasing_by
  have h := List.sizeOf_lt_of_mem kt.2
  cases kt with
  | mk v property => cases v with
    | mk k t => simp_all; omega

/-!
## Sequence and interval layer

The segment store, local references and interval collections
(`@fluidframework/merge-tree` and `@fluidframework/sequence`) are exercised
in this repository only through `sharedInterval.spec.ts`; their
implementation is not part of the source tree. The definitions below are
therefore modelled from the spec (sections 3, 4.1 to 4.3): positions are
resolved endpoint positions, `SlideOnRemove` references relocate to the
nearest live content in the forward direction when their content is
removed, and become detached when no live content exists in that
direction. -/

/-- Modelled from the spec: the resolved position of a local reference,
either a live position or the permanent detached state (reported through
the detached-position sentinel). -/
inductive RefPos : Type where
  | live : Nat → RefPos
  | detached : RefPos
deriving DecidableEq, Repr

/-- Modelled from the spec: the detached-position sentinel, a reserved
out-of-range integer (the value `LocalReference.DetachedPosition` takes in
the client library), returned by resolution for detached references. -/
def resolveRef : RefPos → Int
  | .live p => (p : Int)
  | .detached => -1

/-- Modelled from the spec: effect of `insert(pos, n)` on a resolved
reference position. Content at positions at or after the insertion point
shifts right by `n`; freshly inserted content is excluded at an interval's
open boundary (a start anchored exactly at `pos` moves with its content)
and included at the closing boundary (an end anchored at `pos` moves to
`pos + n`, keeping the old closing unit in range). -/
def refAfterInsert (pos n : Nat) : RefPos → RefPos
  | .live r => .live (if pos ≤ r then r + n else r)
  | .detached => .detached

/-- Modelled from the spec: effect of `remove([s, e))` on a resolved
reference position when the document length after removal is `newLen`.
References before the removed range are unchanged; references inside it
slide forward to the nearest live content (position `s` after the
removal) and become detached when none exists; references after it shift
left by the removed extent. Detachment is permanent. -/
def refAfterRemove (s e newLen : Nat) : RefPos → RefPos
  | .live r =>
    if r < s then .live r
    else if r < e then (if s < newLen then .live s else .detached)
    else .live (r - (e - s))
  | .detached => .detached

/-- Modelled from the spec: one document replica's observable state — the
live content length and the interval endpoints (start reference, end
reference) of every interval of the collection. -/
structure SeqState : Type where
  len : Nat
  intervals : List (RefPos × RefPos)
deriving DecidableEq, Repr

/-- Modelled from the spec: the operation intake of the core, the ordered
stream of accepted insert/remove operations. -/
inductive Op : Type where
  | insert : Nat → Nat → Op
  | remove : Nat → Nat → Op
deriving DecidableEq, Repr

/-- Modelled from the spec: `insert(pos, content)` with `n` content units
relocates every reference and extends the live length. -/
def insertText (st : SeqState) (pos n : Nat) : SeqState :=
  { len := st.len + n
    intervals := st.intervals.map fun pr =>
      (refAfterInsert pos n pr.1, refAfterInsert pos n pr.2) }

/-- Modelled from the spec: `remove(s, e)` removes the content units in
`[s, e)` clamped to the live length, then relocates every reference by
the slide-on-remove policy. -/
def removeRange (st : SeqState) (s e : Nat) : SeqState :=
  { len := st.len - (min e st.len - min s st.len)
    intervals := st.intervals.map fun pr =>
      (refAfterRemove (min s st.len) (min e st.len)
        (st.len - (min e st.len - min s st.len)) pr.1,
       refAfterRemove (min s st.len) (min e st.len)
        (st.len - (min e st.len - min s st.len)) pr.2) }

/-- Modelled from the spec and the client library's `replaceText(s, e,
text)`: insert the `n` replacement units at the closing position `e`, then
remove the replaced range `[s, e)`. -/
def replaceText (st : SeqState) (s e n : Nat) : SeqState :=
  removeRange (insertText st e n) s e

/-- Modelled from the spec: sequential application of one accepted
operation. -/
def applyOp (st : SeqState) : Op → SeqState
  | .insert pos n => insertText st pos n
  | .remove s e => removeRange st s e

/-- Modelled from the spec: each replica independently applies the
identical ordered operation stream, one operation at a time. -/
def applyOps (st : SeqState) : List Op → SeqState
  | [] => st
  | op :: rest => applyOps (applyOp st op) rest

/-- Modelled from the spec: the resolved endpoint positions of every
interval of a replica, with detached endpoints reported through the
sentinel. -/
def resolvedEndpoints (st : SeqState) : List (Int × Int) :=
  st.intervals.map fun pr => (resolveRef pr.1, resolveRef pr.2)

/-- Ordering invariant on one interval: whenever both endpoints are live,
the start position is at most the end position. -/
def liveLe : RefPos → RefPos → Prop
  | .live a, .live b => a ≤ b
  | _, _ => True

/-- Modelled from the spec: an interval overlaps the query range
`[rs, re]` when both endpoints resolve to live positions `a ≤ re` and
`rs ≤ b`; a detached endpoint never overlaps a live range. -/
def overlapsRange (rs re : Nat) : RefPos × RefPos → Bool
  | (.live a, .live b) => decide (a ≤ re) && decide (rs ≤ b)
  | _ => false

/-- Modelled from the spec: `findOverlapping(rangeStart, rangeEnd)`
returns every interval of the collection whose resolved range intersects
the query range. -/
def findOverlapping (st : SeqState) (rs re : Nat) : List (RefPos × RefPos) :=
  st.intervals.filter (overlapsRange rs re)

/-- Declarative reading of the spec's overlap condition, for comparison
with the executable query. -/
def OverlapsSpec (rs re : Nat) (pr : RefPos × RefPos) : Prop :=
  ∃ a b, pr = (RefPos.live a, RefPos.live b) ∧ a ≤ re ∧ rs ≤ b

/-- The replica state of the one-client tests: a three-unit sequence with
one slide-on-remove interval spanning `[0, 2]`. -/
def intervalInit : SeqState :=
  { len := 3, intervals := [(RefPos.live 0, RefPos.live 2)] }

/-- One iteration of the repeated-replacement churn: single-unit
replacements at positions 0, 1 and 2. -/
def churnRound (st : SeqState) : SeqState :=
  replaceText (replaceText (replaceText st 0 1 1) 1 2 1) 2 3 1

instance instDecidableLiveLe : (a b : RefPos) → Decidable (liveLe a b)
  | .live x, .live y => inferInstanceAs (Decidable (x ≤ y))
  | .live _, .detached => .isTrue trivial
  | .detached, _ => .isTrue trivial

/-!
## Helper lemmas on association-list lookup and alias resolution
-/

theorem lookupKey_eq_none_of_not_mem {α : Type} (k : String) (l : List (String × α))
    (h : k ∉ l.map Prod.fst) : lookupKey k l = none := by
  induction l with
  | nil => rfl
  | cons kv rest ih =>
    simp only [List.map_cons, List.mem_cons] at h
    push_neg at h
    have hne : kv.1 ≠ k := fun he => h.1 he.symm
    cases kv with
    | mk k1 v1 => simpa [lookupKey, hne] using ih h.2

theorem lookupKey_map_value {α β : Type} (f : α → β) (k : String)
    (l : List (String × α)) :
    lookupKey k (l.map fun kv => (kv.1, f kv.2)) = (lookupKey k l).map f := by
  induction l with
  | nil => rfl
  | cons kv rest ih =>
    cases kv with
    | mk k1 v1 =>
      by_cases hk : k1 = k
      · simp [lookupKey, hk]
      · simpa [lookupKey, hk] using ih

/-- Lookup in the alias-resolved list: with unique keys in `l`, the entry
for `k` survives exactly when its value is a key of `full`, and then holds
that key's stored string. -/
theorem lookupKey_resolveAliases (full l : List (String × String)) (k : String)
    (hnd : (l.map Prod.fst).Nodup) :
    lookupKey k (resolveAliases full l) =
      (lookupKey k l).bind fun v => lookupKey v full := by
  induction l with
  | nil => rfl
  | cons kv rest ih =>
    simp only [List.map_cons, List.nodup_cons] at hnd
    cases kv with
    | mk k1 v1 =>
      have ih2 := ih hnd.2
      cases hv : lookupKey v1 full with
      | some w =>
        by_cases hk : k1 = k
        · simp [resolveAliases, List.filterMap_cons, hv, lookupKey, hk]
        · simpa [resolveAliases, List.filterMap_cons, hv, lookupKey, hk]
            using ih2
      | none =>
        by_cases hk : k1 = k
        · have hrest : lookupKey k rest = none := by
            apply lookupKey_eq_none_of_not_mem
            rw [← hk]
            exact hnd.1
          simp only [resolveAliases, List.filterMap_cons, hv] at ih2 ⊢
          rw [ih2, hrest]
          simp [lookupKey, hk, hv]
        · simpa [resolveAliases, List.filterMap_cons, hv, lookupKey, hk]
            using ih2


/-- Root blobs of the converted tree: the alias-resolved blob map with
every value base64-decoded. -/
theorem blobs_convert (blobs : List (String × String))
    (trees : List (String × ISnapshotTree)) :
    (convertSnapshotToSummaryTree (.mk blobs trees)).blobs =
      (resolveAliases blobs blobs).map fun kv => (kv.1, base64Decode kv.2) := by
  simp [convertSnapshotToSummaryTree, SummaryTree.blobs]

/-- Lookup in the converted tree's root blobs, assuming the input blob map
has unique keys (true of every map built from `Object.entries`): follow
the key's stored value as a key of the map, then decode. -/
theorem lookupKey_convert (blobs : List (String × String))
    (trees : List (String × ISnapshotTree)) (k : String)
    (hnd : (blobs.map Prod.fst).Nodup) :
    lookupKey k (convertSnapshotToSummaryTree (.mk blobs trees)).blobs =
      ((lookupKey k blobs).bind fun v => lookupKey v blobs).map base64Decode := by
  rw [blobs_convert, lookupKey_map_value, lookupKey_resolveAliases _ _ _ hnd]

/-!
## Claim theorems: snapshot codec
-/

/-- C2: for every input snapshot tree, alias resolution precedes emission:
every blob entry `(k, v)` whose value `v` is a key of the same blob map is
emitted under its original key `k` with the base64-decoding of the string
stored at `v`. The witness instantiates the spec's example map, in which
key `a` aliases `b` and is emitted with decoded content `"hello"`. -/
theorem convert_emits_resolved_blob (t : ISnapshotTree) (k v w : String)
    (hkv : (k, v) ∈ t.blobs) (hw : lookupKey v t.blobs = some w) :
    (k, base64Decode w) ∈ (convertSnapshotToSummaryTree t).blobs := by
  cases t with
  | mk blobs trees =>
    simp only [ISnapshotTree.blobs] at hkv hw
    rw [blobs_convert]
    have h1 : (k, w) ∈ resolveAliases blobs blobs :=
      List.mem_filterMap.2 ⟨(k, v), hkv, by simp [hw]⟩
    exact List.mem_map.2 ⟨(k, w), h1, rfl⟩

theorem convert_emits_resolved_blob_witness :
    ("a", asciiBytes "hello") ∈
      (convertSnapshotToSummaryTree (.mk [("a", "b"), ("b", "aGVsbG8=")] [])).blobs := by
  have h := convert_emits_resolved_blob (.mk [("a", "b"), ("b", "aGVsbG8=")] [])
    "a" "b" "aGVsbG8=" (by decide) (by decide)
  have hd : base64Decode "aGVsbG8=" = asciiBytes "hello" := by decide
  rwa [hd] at h

/-- C6 counterexample: the conversion does not surface an alias cycle as
an error. It is a total function with no error result, and on the
two-element cycle `{a: "b", b: "a"}` it produces a summary tree (each key
carrying the base64-decoding of its own one-character name, which is the
empty byte list), contradicting the claim that a `MalformedSnapshot` error
is raised rather than a summary tree produced. -/
theorem convert_cycle_produces_tree :
    convertSnapshotToSummaryTree (.mk [("a", "b"), ("b", "a")] []) =
      .node [("a", []), ("b", [])] [] := by
  simp only [convertSnapshotToSummaryTree, List.attach_nil, List.map_nil,
    SummaryTree.node.injEq]
  exact ⟨by decide, trivial⟩

/-- C6 amended: an alias cycle is not detected and raises no error; on a
two-element cycle `{a: b, b: a}` with distinct keys, conversion emits both
keys, each carrying the base64-decoding of its own name (single-level
resolution reads the string stored at the alias target, which is the other
entry's value, i.e. the key itself). -/
theorem convert_cycle_emits_own_names (a b : String) (hab : a ≠ b) :
    convertSnapshotToSummaryTree (.mk [(a, b), (b, a)] []) =
      .node [(a, base64Decode a), (b, base64Decode b)] [] := by
  simp only [convertSnapshotToSummaryTree, List.attach_nil, List.map_nil,
    SummaryTree.node.injEq]
  refine ⟨?_, trivial⟩
  simp [resolveAliases, List.filterMap_cons, lookupKey, hab, Ne.symm hab]

theorem convert_cycle_emits_own_names_witness :
    convertSnapshotToSummaryTree (.mk [("a", "b"), ("b", "a")] []) =
      .node [("a", base64Decode "a"), ("b", base64Decode "b")] [] :=
  convert_cycle_emits_own_names "a" "b" (by decide)

/-- C7: a blob whose value aliases a key absent from the blob map is
silently dropped: it never appears in the output summary tree, and the
conversion (a total function with no error result) raises no error. -/
theorem alias_to_missing_key_dropped (t : ISnapshotTree) (k v : String)
    (hnd : (t.blobs.map Prod.fst).Nodup)
    (hkv : lookupKey k t.blobs = some v) (hmiss : lookupKey v t.blobs = none) :
    lookupKey k (convertSnapshotToSummaryTree t).blobs = none := by
  cases t with
  | mk blobs trees =>
    simp only [ISnapshotTree.blobs] at hnd hkv hmiss
    rw [lookupKey_convert _ _ _ hnd, hkv]
    simp [hmiss]

theorem alias_to_missing_key_dropped_witness :
    lookupKey "a"
      (convertSnapshotToSummaryTree (.mk [("a", "zzz"), ("b", "a")] [])).blobs = none :=
  alias_to_missing_key_dropped (.mk [("a", "zzz"), ("b", "a")] []) "a" "zzz"
    (by decide) (by decide) (by decide)

/-- C9: the output summary tree has a blob under key `k` exactly when the
input blob map's value at `k` is itself a key of the same blob map; an
entry holding ordinary content (a value that is not a key) never appears
in the output. -/
theorem convert_blob_present_iff_alias (t : ISnapshotTree) (k : String)
    (hnd : (t.blobs.map Prod.fst).Nodup) :
    (lookupKey k (convertSnapshotToSummaryTree t).blobs).isSome ↔
      ∃ v, lookupKey k t.blobs = some v ∧ (lookupKey v t.blobs).isSome := by
  cases t with
  | mk blobs trees =>
    simp only [ISnapshotTree.blobs] at hnd ⊢
    rw [lookupKey_convert _ _ _ hnd]
    cases hk : lookupKey k blobs with
    | none => simp
    | some v => cases hv : lookupKey v blobs <;> simp [hv]

theorem convert_blob_present_iff_alias_witness :
    (lookupKey "a"
        (convertSnapshotToSummaryTree (.mk [("a", "b"), ("b", "aGVsbG8=")] [])).blobs).isSome
      ∧ ¬ (lookupKey "b"
        (convertSnapshotToSummaryTree (.mk [("a", "b"), ("b", "aGVsbG8=")] [])).blobs).isSome := by
  constructor
  · exact (convert_blob_present_iff_alias (.mk [("a", "b"), ("b", "aGVsbG8=")] [])
      "a" (by decide)).2 ⟨"b", by decide, by decide⟩
  · intro h
    have h2 := (convert_blob_present_iff_alias (.mk [("a", "b"), ("b", "aGVsbG8=")] [])
      "b" (by decide)).1 h
    revert h2
    decide

/-- C10: alias resolution is single-level, not transitive: when key `k`
stores a value `v` that is itself a key, the output at `k` is the
base64-decoding of the literal string stored at `v`, even when that
string is itself yet another blob key. The witness runs the chain
`a -> b -> c` and observes that `a` is emitted with the decoding of the
literal string `"c"`, not with `c`'s content. -/
theorem convert_alias_single_level (t : ISnapshotTree) (k v w : String)
    (hnd : (t.blobs.map Prod.fst).Nodup)
    (hkv : lookupKey k t.blobs = some v) (hvw : lookupKey v t.blobs = some w) :
    lookupKey k (convertSnapshotToSummaryTree t).blobs = some (base64Decode w) := by
  cases t with
  | mk blobs trees =>
    simp only [ISnapshotTree.blobs] at hnd hkv hvw
    rw [lookupKey_convert _ _ _ hnd, hkv]
    simp [hvw]

theorem convert_alias_single_level_witness :
    lookupKey "a"
      (convertSnapshotToSummaryTree
        (.mk [("a", "b"), ("b", "c"), ("c", "Zm9v")] [])).blobs =
      some (base64Decode "c") :=
  convert_alias_single_level (.mk [("a", "b"), ("b", "c"), ("c", "Zm9v")] [])
    "a" "b" "c" (by decide) (by decide) (by decide)

/-!
## Helper lemmas on the interval layer
-/

theorem refAfterInsert_liveLe (pos n : Nat) (a b : RefPos) (h : liveLe a b) :
    liveLe (refAfterInsert pos n a) (refAfterInsert pos n b) := by
  cases a with
  | detached => cases b <;> simp [refAfterInsert, liveLe]
  | live x =>
    cases b with
    | detached => simp [refAfterInsert, liveLe]
    | live y =>
      have h2 : x ≤ y := h
      simp only [refAfterInsert, liveLe]
      split <;> split <;> omega

theorem refAfterRemove_liveLe (s e L : Nat) (a b : RefPos) (h : liveLe a b) :
    liveLe (refAfterRemove s e L a) (refAfterRemove s e L b) := by
  cases a with
  | detached => cases b <;> simp [refAfterRemove, liveLe]
  | live x =>
    cases b with
    | detached => simp [refAfterRemove, liveLe]
    | live y =>
      have h2 : x ≤ y := h
      simp only [refAfterRemove]
      split_ifs <;> simp [liveLe] <;> omega

theorem applyOp_preserves_liveLe (st : SeqState) (op : Op)
    (h : ∀ pr ∈ st.intervals, liveLe pr.1 pr.2) :
    ∀ pr ∈ (applyOp st op).intervals, liveLe pr.1 pr.2 := by
  intro pr hpr
  cases op with
  | insert pos n =>
    simp only [applyOp, insertText, List.mem_map] at hpr
    obtain ⟨q, hq, rfl⟩ := hpr
    exact refAfterInsert_liveLe pos n q.1 q.2 (h q hq)
  | remove s e =>
    simp only [applyOp, removeRange, List.mem_map] at hpr
    obtain ⟨q, hq, rfl⟩ := hpr
    exact refAfterRemove_liveLe _ _ _ q.1 q.2 (h q hq)

theorem applyOps_preserves_liveLe (ops : List Op) (st : SeqState)
    (h : ∀ pr ∈ st.intervals, liveLe pr.1 pr.2) :
    ∀ pr ∈ (applyOps st ops).intervals, liveLe pr.1 pr.2 := by
  induction ops generalizing st with
  | nil => exact h
  | cons op rest ih => exact ih _ (applyOp_preserves_liveLe st op h)

/-!
## Claim theorems: interval layer (modelled from the spec)
-/

/-- C1: two replicas that apply the same sequence of insert/remove
operations in the same order, starting from the same loaded state, end
with identical resolved positions for every interval endpoint (detached
endpoints included via the sentinel). Convergence is the two-run
determinism of the sequential application function `applyOps`: no replica
identity, arrival timing or shared memory enters the computation. -/
theorem replica_convergence (ops : List Op) (st1 st2 : SeqState) (h : st1 = st2) :
    resolvedEndpoints (applyOps st1 ops) = resolvedEndpoints (applyOps st2 ops) := by
  rw [h]

theorem replica_convergence_witness :
    resolvedEndpoints (applyOps intervalInit [Op.insert 0 1, Op.remove 1 2]) =
      resolvedEndpoints (applyOps intervalInit [Op.insert 0 1, Op.remove 1 2]) :=
  replica_convergence [Op.insert 0 1, Op.remove 1 2] intervalInit intervalInit rfl

/-- C3: for the interval `[0, 2]` over a three-unit sequence, inserting
one content unit at position 0 yields `[1, 3]`, at position 2 yields
`[0, 3]`, and at position 3 leaves `[0, 2]`: insertion at the open
boundary is excluded, at the closing boundary included, after the end
excluded. -/
theorem insert_boundary_semantics :
    (applyOp intervalInit (Op.insert 0 1)).intervals = [(RefPos.live 1, RefPos.live 3)] ∧
    (applyOp intervalInit (Op.insert 2 1)).intervals = [(RefPos.live 0, RefPos.live 3)] ∧
    (applyOp intervalInit (Op.insert 3 1)).intervals = [(RefPos.live 0, RefPos.live 2)] :=
  ⟨by decide, by decide, by decide⟩

/-- C4: for every sequence of operations, an interval whose endpoints are
both live keeps resolved start at most resolved end (no operation ever
leaves start greater than end, and a detached endpoint vacuously
satisfies the ordering); and removing a range covering the entire live
extent of an interval maps it to a pair of identical endpoints (the same
collapsed point, or the same detached sentinel when no live content
remains in the slide direction). -/
theorem interval_order_and_collapse (ops : List Op) (st : SeqState)
    (hwf : ∀ pr ∈ st.intervals, liveLe pr.1 pr.2) :
    (∀ pr ∈ (applyOps st ops).intervals, liveLe pr.1 pr.2) ∧
    (∀ s e a b, (RefPos.live a, RefPos.live b) ∈ st.intervals → s ≤ a → a ≤ b →
      b < e → e ≤ st.len → ∃ r, (r, r) ∈ (removeRange st s e).intervals) := by
  constructor
  · exact applyOps_preserves_liveLe ops st hwf
  · intro s e a b hmem hsa hab hbe hel
    have hs2 : min s st.len = s := by omega
    have he2 : min e st.len = e := by omega
    refine ⟨refAfterRemove s e (st.len - (e - s)) (RefPos.live a), ?_⟩
    simp only [removeRange, hs2, he2, List.mem_map]
    refine ⟨(RefPos.live a, RefPos.live b), hmem, ?_⟩
    have hone : refAfterRemove s e (st.len - (e - s)) (RefPos.live a)
        = refAfterRemove s e (st.len - (e - s)) (RefPos.live b) := by
      simp only [refAfterRemove]
      split_ifs <;> first | rfl | omega
    rw [Prod.mk.injEq]
    exact ⟨rfl, hone.symm⟩

theorem interval_order_and_collapse_witness :
    ∃ r, (r, r) ∈ (removeRange intervalInit 0 3).intervals :=
  (interval_order_and_collapse [] intervalInit (by decide)).2 0 3 0 2
    (by decide) (by decide) (by decide) (by decide) (by decide)

/-- C5: replacing content strictly inside an interval leaves the resolved
bounds unchanged — for an interval `[a, b]` and a same-length replacement
of the range `[s, e)` lying inside the interval (`a ≤ s < e ≤ b`) on a
document long enough to hold the interval, the interval keeps exactly the
endpoints `(a, b)`; and the 10 by 10 repeated single-unit replacements at
positions 0, 1, 2 of a three-unit sequence leave the full-span interval at
`[0, 2]` after every iteration (each churn round is the identity on the
state, so every one of the 100 iterations observes `[0, 2]`). -/
theorem replace_inside_preserves (st : SeqState) (a b s e : Nat)
    (hmem : (RefPos.live a, RefPos.live b) ∈ st.intervals)
    (hsa : a ≤ s) (hse : s < e) (heb : e ≤ b) (hbl : b < st.len) :
    (RefPos.live a, RefPos.live b) ∈ (replaceText st s e (e - s)).intervals ∧
    ∀ k : Nat, churnRound^[k] intervalInit = intervalInit := by
  constructor
  · have h1 : (RefPos.live a, RefPos.live (b + (e - s))) ∈
        (insertText st e (e - s)).intervals := by
      simp only [insertText, List.mem_map]
      refine ⟨(RefPos.live a, RefPos.live b), hmem, ?_⟩
      have hea : ¬ e ≤ a := by omega
      simp [refAfterInsert, hea, heb]
    have hlen : (insertText st e (e - s)).len = st.len + (e - s) := rfl
    have hs2 : min s (st.len + (e - s)) = s := by omega
    have he2 : min e (st.len + (e - s)) = e := by omega
    have hnl : st.len + (e - s) - (e - s) = st.len := by omega
    simp only [replaceText, removeRange, hlen, hs2, he2, hnl, List.mem_map]
    refine ⟨(RefPos.live a, RefPos.live (b + (e - s))), h1, ?_⟩
    rw [Prod.mk.injEq]
    constructor
    · simp only [refAfterRemove]
      split_ifs <;> first | rfl | (congr 1; omega)
    · simp only [refAfterRemove]
      split_ifs <;> first | rfl | (congr 1; omega)
  · intro k
    have hfix : churnRound intervalInit = intervalInit := by decide
    exact Function.iterate_fixed hfix k

theorem replace_inside_preserves_witness :
    (RefPos.live 0, RefPos.live 3) ∈
      (replaceText { len := 4, intervals := [(RefPos.live 0, RefPos.live 3)] }
        0 3 3).intervals :=
  (replace_inside_preserves
    { len := 4, intervals := [(RefPos.live 0, RefPos.live 3)] } 0 3 0 3
    (by decide) (by decide) (by decide) (by decide) (by decide)).1

/-- C8: the overlap query returns exactly the intervals of the collection
whose resolved `[start, end]` intersects the query range `[rs, re]`
(membership in `findOverlapping` is equivalent to membership in the
collection together with the declarative overlap condition on live
resolved endpoints), and a detached interval — both endpoints collapsed to
the detached state — is never among the results of any range query. -/
theorem findOverlapping_correct (st : SeqState) (rs re : Nat) :
    (∀ pr, pr ∈ findOverlapping st rs re ↔
      pr ∈ st.intervals ∧ OverlapsSpec rs re pr) ∧
    (RefPos.detached, RefPos.detached) ∉ findOverlapping st rs re := by
  have hiff : ∀ pr : RefPos × RefPos,
      overlapsRange rs re pr = true ↔ OverlapsSpec rs re pr := by
    intro pr
    obtain ⟨x, y⟩ := pr
    cases x <;> cases y <;> simp [overlapsRange, OverlapsSpec]
    constructor
    · rintro ⟨h1, h2⟩
      exact ⟨_, _, ⟨rfl, rfl⟩, h1, h2⟩
    · rintro ⟨a2, b2, ⟨rfl, rfl⟩, h1, h2⟩
      exact ⟨h1, h2⟩
  constructor
  · intro pr
    rw [findOverlapping, List.mem_filter, hiff pr]
  · intro hmem
    rw [findOverlapping, List.mem_filter] at hmem
    simp [overlapsRange] at hmem

theorem findOverlapping_correct_witness :
    (RefPos.detached, RefPos.detached) ∉
      findOverlapping
        { len := 0, intervals := [(RefPos.detached, RefPos.detached)] } 0 0 :=
  (findOverlapping_correct
    { len := 0, intervals := [(RefPos.detached, RefPos.detached)] } 0 0).2
